import Mathlib

/-!
Shallow embedding of the PDI ("Probabilistic Diffusion Inference") cascade
reconstruction core of the `cascade_reconstruction` repository, together with
proofs checking the specification's claims about it.

The embedded code is:
  * `power_law`, `get_who_rtd_whom`  — `src/code/package/pkg/reconstruction.py`
  * `entire_cascade_reconstruction`, `num_cascade_versions`
      — `src/code/data_analysis/reconstruct_all_cascades.py`
      (the bluesky variant `src/bluesky/code/data_analysis/001_reconstruct_all_cascades.py`
       contains an identical `num_cascade_versions` computation and driver).

Modelling conventions:
  * Python floats are idealized as real numbers; exact division by zero
    (which yields IEEE `nan`/`inf` in the source) is flagged where a claim
    depends on it rather than silently using Lean's `x / 0 = 0` convention.
  * `scipy.integrate.quad(f, a, b)[0]` is idealized as the interval integral
    `∫ x in a..b, f x`.
  * The single random draw `np.random.choice(a, p=p)` is modelled
    nondeterministically: a `pick` index chosen by an oracle stands for the
    sampled index, while numpy's own validation of the weight vector `p`
    (size match, non-negativity, sum within `atol` of 1 — in that order,
    from numpy's `mtrand.pyx`) is embedded explicitly, since it is the only
    place the source can raise during a reconstruction.
  * Python exceptions are modelled with `Except String`; an exception inside
    the reconstruction loop aborts the whole version, as in the source.
-/

open MeasureTheory

set_option linter.unusedSectionVars false

variable {U : Type} [Inhabited U] [DecidableEq U]

/-- Integration half-window used by `power_law` (`epsilon = 0.0001` in the source). -/
noncomputable def epsilon : ℝ := 1 / 10000

/-- Tolerance used by `np.random.choice` for its probability-sum check:
`atol = np.sqrt(np.finfo(np.float64).eps) = 2 ^ (-26)`. -/
noncomputable def np_atol : ℝ := 1 / 2 ^ 26

/-- Embedding of `power_law(z, alpha, xmin)` from `pkg/reconstruction.py`:
the value component of
`integrate.quad(lambda x: ((alpha - 1) / xmin) * ((xmin / x) ** alpha), z - epsilon, z + epsilon)`,
idealized as the exact interval integral.  Real exponentiation `**` is `Real.rpow`. -/
noncomputable def power_law (z alpha xmin : ℝ) : ℝ :=
  ∫ x in (z - epsilon)..(z + epsilon), ((alpha - 1) / xmin) * ((xmin / x) ^ alpha)

/-- Embedding of `fcount_probabilities = poten_edge_fcounts / total_fcounts`
(with `total_fcounts = sum(poten_edge_fcounts)`) from `get_who_rtd_whom`.
When the total is `0` the source divides by zero (IEEE `nan`); in this exact
model the entries are then Lean's `x / 0 = 0`, and that degenerate case is
treated explicitly in the claims that touch it. -/
noncomputable def fcount_probabilities (poten_edge_fcounts : List ℝ) : List ℝ :=
  poten_edge_fcounts.map (fun f => f / poten_edge_fcounts.sum)

/-- Embedding of
`tdiff_probs = np.array([power_law(tdiff + 0.1, alpha, xmin)[0] for tdiff in time_diffs])`
with `time_diffs = curr_tstamp - poten_edge_tstamps` from `get_who_rtd_whom`. -/
noncomputable def tdiff_probs (poten_edge_tstamps : List ℝ) (curr_tstamp alpha xmin : ℝ) :
    List ℝ :=
  poten_edge_tstamps.map (fun t => power_law ((curr_tstamp - t) + 1 / 10) alpha xmin)

/-- Embedding of `norm_tstamp_prob_array = tdiff_probs / tdiff_probs.sum()`. -/
noncomputable def norm_tstamp_prob_array (poten_edge_tstamps : List ℝ)
    (curr_tstamp alpha xmin : ℝ) : List ℝ :=
  (tdiff_probs poten_edge_tstamps curr_tstamp alpha xmin).map
    (fun q => q / (tdiff_probs poten_edge_tstamps curr_tstamp alpha xmin).sum)

/-- Embedding of
`indiv_probs = gamma * fcount_probabilities + (1 - gamma) * norm_tstamp_prob_array`
(elementwise over arrays of equal length) from `get_who_rtd_whom`. -/
noncomputable def indiv_probs (poten_edge_tstamps poten_edge_fcounts : List ℝ)
    (curr_tstamp gamma alpha xmin : ℝ) : List ℝ :=
  List.zipWith (fun a b => gamma * a + (1 - gamma) * b)
    (fcount_probabilities poten_edge_fcounts)
    (norm_tstamp_prob_array poten_edge_tstamps curr_tstamp alpha xmin)

/-- Embedding of `np.random.choice(a, p=p)` (numpy `mtrand.pyx`): the checks it
performs on `p`, in source order — size match against `a`, non-negativity,
sum within `atol` of 1 — each raising `ValueError`, and otherwise the draw of
one element of `a`, modelled by the oracle index `pick`. -/
noncomputable def np_random_choice (pick : ℕ) (a : List U) (p : List ℝ) : Except String U :=
  if p.length ≠ a.length then Except.error "a and p must have same size"
  else if ¬ (∀ x ∈ p, 0 ≤ x) then Except.error "probabilities are not non-negative"
  else if ¬ |p.sum - 1| ≤ np_atol then Except.error "probabilities do not sum to 1"
  else Except.ok (a.getD pick default)

/-- Embedding of `get_who_rtd_whom` from `pkg/reconstruction.py`: build
`indiv_probs` and draw one user from `poten_edge_users` weighted by it. -/
noncomputable def get_who_rtd_whom (pick : ℕ) (poten_edge_users : List U)
    (poten_edge_tstamps poten_edge_fcounts : List ℝ)
    (curr_tstamp gamma alpha xmin : ℝ) : Except String U :=
  np_random_choice pick poten_edge_users
    (indiv_probs poten_edge_tstamps poten_edge_fcounts curr_tstamp gamma alpha xmin)

/-- The inference loop of `entire_cascade_reconstruction`
(`for idx in range(2, num_retweets): ...`), over an explicit list of loop
indices: at each `idx` the engine is invoked on the length-`idx` slices
`poten_edge_users[:idx]`, `poten_edge_tstamps[:idx]`, `poten_edge_fcounts[:idx]`
with `curr_tstamp = poten_edge_tstamps[idx]`, and the edge
`(inferred_parent, poten_edge_users[idx])` is appended; an exception aborts
the whole run. -/
noncomputable def infer_edges (pick : ℕ → ℕ) (poten_edge_users : List U)
    (poten_edge_tstamps poten_edge_fcounts : List ℝ) (gamma alpha xmin : ℝ) :
    List ℕ → Except String (List (U × U))
  | [] => Except.ok []
  | idx :: rest =>
    match get_who_rtd_whom (pick idx) (poten_edge_users.take idx)
        (poten_edge_tstamps.take idx) (poten_edge_fcounts.take idx)
        (poten_edge_tstamps.getD idx 0) gamma alpha xmin with
    | Except.error e => Except.error e
    | Except.ok parent =>
      match infer_edges pick poten_edge_users poten_edge_tstamps poten_edge_fcounts
          gamma alpha xmin rest with
      | Except.error e => Except.error e
      | Except.ok tail => Except.ok ((parent, poten_edge_users.getD idx default) :: tail)

/-- Embedding of `entire_cascade_reconstruction` from
`reconstruct_all_cascades.py`: the first edge
`(poten_edge_users[0], poten_edge_users[1])` is emitted verbatim, then the
loop `for idx in range(2, num_retweets)` (with
`num_retweets = len(poten_edge_tstamps)`) appends one inferred edge per event. -/
noncomputable def entire_cascade_reconstruction (pick : ℕ → ℕ) (poten_edge_users : List U)
    (poten_edge_tstamps poten_edge_fcounts : List ℝ) (gamma alpha xmin : ℝ) :
    Except String (List (U × U)) :=
  match infer_edges pick poten_edge_users poten_edge_tstamps poten_edge_fcounts
      gamma alpha xmin (List.range' 2 (poten_edge_tstamps.length - 2)) with
  | Except.error e => Except.error e
  | Except.ok rest =>
    Except.ok ((poten_edge_users.getD 0 default, poten_edge_users.getD 1 default) :: rest)

/-- `N_SIMULATIONS = 100` from `reconstruct_all_cascades.py`. -/
def N_SIMULATIONS : ℕ := 100

/-- Embedding of
`num_cascade_versions = 1 if (num_tweets == 2) else N_SIMULATIONS`
from `reconstruct_all_cascades.py` (identical in the bluesky script, with
`num_posts` in place of `num_tweets`). -/
def num_cascade_versions (num_tweets : ℕ) : ℕ :=
  if num_tweets = 2 then 1 else N_SIMULATIONS

/-- The edge list a successful driver run produces, written out explicitly:
the verbatim first edge followed by, for each loop index `i`, the edge from
the sampled candidate `poten_edge_users[:i][pick i]` to `poten_edge_users[i]`.
`entire_cascade_reconstruction` is proved below to return exactly this list
whenever every engine invocation succeeds. -/
def pdi_edge_list (pick : ℕ → ℕ) (users : List U) : List (U × U) :=
  (users.getD 0 default, users.getD 1 default) ::
    (List.range' 2 (users.length - 2)).map
      (fun i => ((users.take i).getD (pick i) default, users.getD i default))

/-- Closed-form power-law density named by the spec (section 4.1):
`(alpha-1)/xmin * (xmin/t)^alpha`.  Stated from the spec's words as the
comparison point for the refinement claim about `power_law`; the source's
`power_law` integrates exactly this expression over `t ± epsilon`. -/
noncomputable def closed_form_density (t alpha xmin : ℝ) : ℝ :=
  ((alpha - 1) / xmin) * ((xmin / t) ^ alpha)

lemma epsilon_pos : 0 < epsilon := by norm_num [epsilon]

lemma power_law_eq_integral (z alpha xmin : ℝ) :
    power_law z alpha xmin =
      ∫ x in (z - epsilon)..(z + epsilon), closed_form_density x alpha xmin := rfl

lemma closed_form_density_pos {t alpha xmin : ℝ} (ht : 0 < t) (ha : 1 < alpha)
    (hx : 0 < xmin) : 0 < closed_form_density t alpha xmin :=
  mul_pos (div_pos (by linarith) hx) (Real.rpow_pos_of_pos (div_pos hx ht) _)

lemma closed_form_density_anti {a b alpha xmin : ℝ} (ha : 0 < a) (hab : a ≤ b)
    (halpha : 1 ≤ alpha) (hx : 0 < xmin) :
    closed_form_density b alpha xmin ≤ closed_form_density a alpha xmin := by
  unfold closed_form_density
  have hb : 0 < b := lt_of_lt_of_le ha hab
  refine mul_le_mul_of_nonneg_left ?_ (div_nonneg (by linarith) hx.le)
  refine Real.rpow_le_rpow (div_nonneg hx.le hb.le) ?_ (by linarith)
  gcongr

lemma closed_form_density_continuousOn {s : Set ℝ} (alpha xmin : ℝ) (halpha : 0 ≤ alpha)
    (hs : ∀ x ∈ s, x ≠ (0 : ℝ)) :
    ContinuousOn (fun x => closed_form_density x alpha xmin) s := by
  unfold closed_form_density
  exact continuousOn_const.mul
    ((continuousOn_const.div continuousOn_id hs).rpow_const (fun x _ => Or.inr halpha))

lemma power_law_intervalIntegrable {z alpha xmin : ℝ} (hz : epsilon < z) (halpha : 0 ≤ alpha) :
    IntervalIntegrable (fun x => closed_form_density x alpha xmin) volume
      (z - epsilon) (z + epsilon) := by
  apply ContinuousOn.intervalIntegrable
  apply closed_form_density_continuousOn _ _ halpha
  intro x hx
  rw [Set.uIcc_of_le (by linarith [epsilon_pos])] at hx
  have h0 : (0 : ℝ) < x := lt_of_lt_of_le (by linarith) hx.1
  exact h0.ne'

lemma power_law_lower {z alpha xmin : ℝ} (hz : epsilon < z) (halpha : 1 ≤ alpha)
    (hx : 0 < xmin) :
    2 * epsilon * closed_form_density (z + epsilon) alpha xmin ≤ power_law z alpha xmin := by
  have heps := epsilon_pos
  have hab : z - epsilon ≤ z + epsilon := by linarith
  have hint := @power_law_intervalIntegrable z alpha xmin hz (by linarith)
  have hmono := intervalIntegral.integral_mono_on (μ := volume) hab
    (intervalIntegrable_const (c := closed_form_density (z + epsilon) alpha xmin)) hint
    (fun x hmem => closed_form_density_anti (lt_of_lt_of_le (by linarith) hmem.1)
      hmem.2 halpha hx)
  rw [intervalIntegral.integral_const, smul_eq_mul] at hmono
  rw [power_law_eq_integral]
  calc 2 * epsilon * closed_form_density (z + epsilon) alpha xmin
      = (z + epsilon - (z - epsilon)) * closed_form_density (z + epsilon) alpha xmin := by
        ring
    _ ≤ _ := hmono

lemma power_law_upper {z alpha xmin : ℝ} (hz : epsilon < z) (halpha : 1 ≤ alpha)
    (hx : 0 < xmin) :
    power_law z alpha xmin ≤ 2 * epsilon * closed_form_density (z - epsilon) alpha xmin := by
  have heps := epsilon_pos
  have hab : z - epsilon ≤ z + epsilon := by linarith
  have hint := @power_law_intervalIntegrable z alpha xmin hz (by linarith)
  have hmono := intervalIntegral.integral_mono_on (μ := volume) hab hint
    (intervalIntegrable_const (c := closed_form_density (z - epsilon) alpha xmin))
    (fun x hmem => closed_form_density_anti (by linarith) hmem.1 halpha hx)
  rw [intervalIntegral.integral_const, smul_eq_mul] at hmono
  rw [power_law_eq_integral]
  calc (∫ x in (z - epsilon)..(z + epsilon), closed_form_density x alpha xmin)
      ≤ (z + epsilon - (z - epsilon)) * closed_form_density (z - epsilon) alpha xmin := hmono
    _ = 2 * epsilon * closed_form_density (z - epsilon) alpha xmin := by ring

lemma power_law_pos {z alpha xmin : ℝ} (hz : epsilon < z) (halpha : 1 < alpha)
    (hx : 0 < xmin) : 0 < power_law z alpha xmin :=
  lt_of_lt_of_le
    (mul_pos (by linarith [epsilon_pos])
      (closed_form_density_pos (by linarith [epsilon_pos]) halpha hx))
    (power_law_lower hz halpha.le hx)

lemma sum_map_div (l : List ℝ) (c : ℝ) : (l.map (fun x => x / c)).sum = l.sum / c := by
  induction l with
  | nil => simp
  | cons a t ih => simp [ih, add_div]

lemma sum_zipWith_mix (γ δ : ℝ) (xs : List ℝ) : ∀ ys : List ℝ, xs.length = ys.length →
    (List.zipWith (fun a b => γ * a + δ * b) xs ys).sum = γ * xs.sum + δ * ys.sum := by
  induction xs with
  | nil =>
    intro ys h
    have hy : ys = [] := List.length_eq_zero.mp h.symm
    subst hy; simp
  | cons a t ih =>
    intro ys h
    cases ys with
    | nil => simp at h
    | cons b u =>
      simp only [List.zipWith_cons_cons, List.sum_cons]
      rw [ih u (by simpa using h)]
      ring

lemma mem_zipWith_imp {α β γ : Type} {f : α → β → γ} :
    ∀ {xs : List α} {ys : List β} {q : γ}, q ∈ List.zipWith f xs ys →
      ∃ a ∈ xs, ∃ b ∈ ys, q = f a b := by
  intro xs
  induction xs with
  | nil => intro ys q h; simp at h
  | cons x xs ih =>
    intro ys q h
    cases ys with
    | nil => simp at h
    | cons y ys =>
      rw [List.zipWith_cons_cons, List.mem_cons] at h
      rcases h with rfl | h
      · exact ⟨x, List.mem_cons_self _ _, y, List.mem_cons_self _ _, rfl⟩
      · obtain ⟨a, ha, b, hb, rfl⟩ := ih h
        exact ⟨a, List.mem_cons_of_mem _ ha, b, List.mem_cons_of_mem _ hb, rfl⟩

lemma fcount_probabilities_length (fc : List ℝ) :
    (fcount_probabilities fc).length = fc.length := by
  simp [fcount_probabilities]

lemma fcount_probabilities_sum {fc : List ℝ} (h : fc.sum ≠ 0) :
    (fcount_probabilities fc).sum = 1 := by
  rw [fcount_probabilities, sum_map_div, div_self h]

lemma fcount_probabilities_nonneg {fc : List ℝ} (h : ∀ x ∈ fc, 0 ≤ x) :
    ∀ q ∈ fcount_probabilities fc, 0 ≤ q := by
  intro q hq
  rw [fcount_probabilities, List.mem_map] at hq
  obtain ⟨x, hx, rfl⟩ := hq
  exact div_nonneg (h x hx) (List.sum_nonneg h)

lemma tdiff_probs_length (ts : List ℝ) (curr alpha xmin : ℝ) :
    (tdiff_probs ts curr alpha xmin).length = ts.length := by
  simp [tdiff_probs]

lemma tdiff_probs_pos {ts : List ℝ} {curr alpha xmin : ℝ} (hts : ∀ t ∈ ts, t ≤ curr)
    (ha : 1 < alpha) (hx : 0 < xmin) : ∀ q ∈ tdiff_probs ts curr alpha xmin, 0 < q := by
  intro q hq
  rw [tdiff_probs, List.mem_map] at hq
  obtain ⟨t, ht, rfl⟩ := hq
  have hgap : 0 ≤ curr - t := by linarith [hts t ht]
  refine power_law_pos ?_ ha hx
  unfold epsilon
  linarith

lemma tdiff_probs_sum_pos {ts : List ℝ} {curr alpha xmin : ℝ} (hts : ∀ t ∈ ts, t ≤ curr)
    (ha : 1 < alpha) (hx : 0 < xmin) (hne : ts ≠ []) :
    0 < (tdiff_probs ts curr alpha xmin).sum := by
  refine List.sum_pos _ (tdiff_probs_pos hts ha hx) ?_
  simp [tdiff_probs, hne]

lemma norm_tstamp_length (ts : List ℝ) (curr alpha xmin : ℝ) :
    (norm_tstamp_prob_array ts curr alpha xmin).length = ts.length := by
  simp [norm_tstamp_prob_array, tdiff_probs]

lemma norm_tstamp_sum {ts : List ℝ} {curr alpha xmin : ℝ}
    (h : (tdiff_probs ts curr alpha xmin).sum ≠ 0) :
    (norm_tstamp_prob_array ts curr alpha xmin).sum = 1 := by
  rw [norm_tstamp_prob_array, sum_map_div, div_self h]

lemma norm_tstamp_nonneg {ts : List ℝ} {curr alpha xmin : ℝ} (hts : ∀ t ∈ ts, t ≤ curr)
    (ha : 1 < alpha) (hx : 0 < xmin) :
    ∀ q ∈ norm_tstamp_prob_array ts curr alpha xmin, 0 ≤ q := by
  intro q hq
  rw [norm_tstamp_prob_array, List.mem_map] at hq
  obtain ⟨x, hx', rfl⟩ := hq
  refine div_nonneg (le_of_lt (tdiff_probs_pos hts ha hx _ hx')) ?_
  exact List.sum_nonneg (fun y hy => le_of_lt (tdiff_probs_pos hts ha hx _ hy))

lemma indiv_probs_length (ts fc : List ℝ) (curr gamma alpha xmin : ℝ) :
    (indiv_probs ts fc curr gamma alpha xmin).length = min fc.length ts.length := by
  simp [indiv_probs, fcount_probabilities, norm_tstamp_prob_array, tdiff_probs]

/-- Core validity of the engine's combined probability vector: with non-negative
audience counts of positive total, causally prior timestamps, `gamma ∈ [0,1]`,
`alpha > 1` and `xmin > 0`, all entries of `indiv_probs` are non-negative and
they sum exactly to 1. -/
lemma indiv_probs_valid {ts fc : List ℝ} {curr gamma alpha xmin : ℝ}
    (hlen : ts.length = fc.length) (hfc : ∀ x ∈ fc, 0 ≤ x) (hsum : 0 < fc.sum)
    (hts : ∀ t ∈ ts, t ≤ curr) (hg0 : 0 ≤ gamma) (hg1 : gamma ≤ 1)
    (ha : 1 < alpha) (hx : 0 < xmin) :
    (∀ q ∈ indiv_probs ts fc curr gamma alpha xmin, 0 ≤ q) ∧
      (indiv_probs ts fc curr gamma alpha xmin).sum = 1 := by
  have hfcne : fc ≠ [] := by
    intro h; rw [h] at hsum; simp at hsum
  have htsne : ts ≠ [] := by
    intro h
    rw [h] at hlen
    exact hfcne (List.length_eq_zero.mp hlen.symm)
  constructor
  · intro q hq
    obtain ⟨a, haa, b, hbb, rfl⟩ := mem_zipWith_imp hq
    have h1 : 0 ≤ a := fcount_probabilities_nonneg hfc _ haa
    have h2 : 0 ≤ b := norm_tstamp_nonneg hts ha hx _ hbb
    nlinarith
  · rw [indiv_probs, sum_zipWith_mix _ _ _ _
      (by rw [fcount_probabilities_length, norm_tstamp_length, hlen])]
    rw [fcount_probabilities_sum hsum.ne', norm_tstamp_sum
      (tdiff_probs_sum_pos hts ha hx htsne).ne']
    ring

/-- Whenever the combined probability vector passes numpy's validation, the
engine performs the draw and returns the sampled candidate; nothing else in
`get_who_rtd_whom` can reject an input. -/
lemma get_who_rtd_whom_eval {users : List U} {ts fc : List ℝ}
    {curr gamma alpha xmin : ℝ} (pick : ℕ)
    (hlen : (indiv_probs ts fc curr gamma alpha xmin).length = users.length)
    (hnn : ∀ q ∈ indiv_probs ts fc curr gamma alpha xmin, 0 ≤ q)
    (hsum : |(indiv_probs ts fc curr gamma alpha xmin).sum - 1| ≤ np_atol) :
    get_who_rtd_whom pick users ts fc curr gamma alpha xmin =
      Except.ok (users.getD pick default) := by
  unfold get_who_rtd_whom np_random_choice
  rw [if_neg (not_ne_iff.mpr hlen), if_neg (not_not_intro hnn),
    if_neg (not_not_intro hsum)]

/-- Under the validity hypotheses of `indiv_probs_valid` (and matching list
lengths) the engine never raises: it returns the candidate at the sampled
index. -/
lemma get_who_rtd_whom_ok {users : List U} {ts fc : List ℝ} {curr gamma alpha xmin : ℝ}
    (pick : ℕ) (hlen : ts.length = fc.length) (hlenu : users.length = fc.length)
    (hfc : ∀ x ∈ fc, 0 ≤ x) (hsum : 0 < fc.sum) (hts : ∀ t ∈ ts, t ≤ curr)
    (hg0 : 0 ≤ gamma) (hg1 : gamma ≤ 1) (ha : 1 < alpha) (hx : 0 < xmin) :
    get_who_rtd_whom pick users ts fc curr gamma alpha xmin =
      Except.ok (users.getD pick default) := by
  obtain ⟨hnn, hsum1⟩ := indiv_probs_valid hlen hfc hsum hts hg0 hg1 ha hx
  refine get_who_rtd_whom_eval pick ?_ hnn ?_
  · rw [indiv_probs_length, hlen, hlenu, min_self]
  · rw [hsum1]
    simp only [sub_self, abs_zero]
    unfold np_atol
    positivity

lemma zipWith_proj_left {α' β' : Type} : ∀ (xs : List α') (ys : List β'),
    xs.length = ys.length → List.zipWith (fun a _ => a) xs ys = xs := by
  intro xs
  induction xs with
  | nil => intro ys h; simp
  | cons a t ih =>
    intro ys h
    cases ys with
    | nil => simp at h
    | cons b u => simp [ih u (by simpa using h)]

lemma zipWith_proj_right {α' β' : Type} : ∀ (xs : List α') (ys : List β'),
    xs.length = ys.length → List.zipWith (fun _ b => b) xs ys = ys := by
  intro xs
  induction xs with
  | nil =>
    intro ys h
    have hy : ys = [] := List.length_eq_zero.mp h.symm
    subst hy; simp
  | cons a t ih =>
    intro ys h
    cases ys with
    | nil => simp at h
    | cons b u => simp [ih u (by simpa using h)]

lemma tdiff_probs_const {ts : List ℝ} {curr g alpha xmin : ℝ} (h : ∀ t ∈ ts, curr - t = g) :
    tdiff_probs ts curr alpha xmin =
      List.replicate ts.length (power_law (g + 1 / 10) alpha xmin) := by
  rw [tdiff_probs]
  have hl : ts.length =
      (ts.map (fun t => power_law ((curr - t) + 1 / 10) alpha xmin)).length := by simp
  rw [hl, List.eq_replicate_length]
  intro b hb
  rw [List.mem_map] at hb
  obtain ⟨t, ht, rfl⟩ := hb
  rw [h t ht]

lemma norm_tstamp_const {ts : List ℝ} {curr g alpha xmin : ℝ} (h : ∀ t ∈ ts, curr - t = g)
    (hg : 0 ≤ g) (ha : 1 < alpha) (hx : 0 < xmin) (hne : ts ≠ []) :
    norm_tstamp_prob_array ts curr alpha xmin =
      List.replicate ts.length ((ts.length : ℝ))⁻¹ := by
  have hc : 0 < power_law (g + 1 / 10) alpha xmin := by
    refine power_law_pos ?_ ha hx
    unfold epsilon; linarith
  have hn : (0 : ℝ) < (ts.length : ℝ) := by
    have h0 : ts.length ≠ 0 := by simpa [List.length_eq_zero] using hne
    exact_mod_cast Nat.pos_of_ne_zero h0
  rw [norm_tstamp_prob_array, tdiff_probs_const h, List.map_replicate, List.sum_replicate]
  congr 1
  rw [nsmul_eq_mul, mul_comm, div_mul_eq_div_div, div_self hc.ne', one_div]

/-- C4: for every cascade, exactly 1 version is generated when the cascade has
exactly 2 events, and exactly `N_SIMULATIONS = 100` versions otherwise. -/
theorem C4_version_count :
    num_cascade_versions 2 = 1 ∧ ∀ n : ℕ, n ≠ 2 → num_cascade_versions n = 100 := by
  refine ⟨rfl, fun n hn => ?_⟩
  simp [num_cascade_versions, hn, N_SIMULATIONS]

/-- Witness for C4 at the concrete cascade sizes 2 and 5. -/
theorem C4_version_count_witness :
    num_cascade_versions 2 = 1 ∧ num_cascade_versions 5 = 100 :=
  ⟨C4_version_count.1, C4_version_count.2 5 (by decide)⟩

/-- C3: for every non-empty candidate set with non-negative audience sizes of
positive total, non-negative time gaps, `gamma ∈ [0,1]`, `alpha > 1` and
`xmin > 0`, the combined vector
`p_final = gamma * p_audience + (1 - gamma) * p_time` built by the inference
engine has all entries non-negative and sums exactly to 1 in exact
arithmetic. -/
theorem C3_probability_mass {ts fc : List ℝ} {curr gamma alpha xmin : ℝ}
    (hlen : ts.length = fc.length) (hfc : ∀ x ∈ fc, 0 ≤ x) (hsum : 0 < fc.sum)
    (hts : ∀ t ∈ ts, t ≤ curr) (hg0 : 0 ≤ gamma) (hg1 : gamma ≤ 1)
    (ha : 1 < alpha) (hx : 0 < xmin) :
    (∀ q ∈ indiv_probs ts fc curr gamma alpha xmin, 0 ≤ q) ∧
      (indiv_probs ts fc curr gamma alpha xmin).sum = 1 :=
  indiv_probs_valid hlen hfc hsum hts hg0 hg1 ha hx

/-- Witness for C3 at a concrete candidate set. -/
theorem C3_probability_mass_witness :
    (∀ q ∈ indiv_probs [0, 0] [1, 3] 0 (1 / 2) 2 1, 0 ≤ q) ∧
      (indiv_probs [0, 0] [1, 3] 0 (1 / 2) 2 1).sum = 1 :=
  C3_probability_mass (by norm_num)
    (by rintro x hx; simp only [List.mem_cons, List.not_mem_nil, or_false] at hx
        rcases hx with rfl | rfl <;> norm_num)
    (by norm_num)
    (by rintro t ht; simp only [List.mem_cons, List.not_mem_nil, or_false] at ht
        rcases ht with rfl | rfl <;> norm_num)
    (by norm_num) (by norm_num) (by norm_num) (by norm_num)

/-- C10: for non-negative time gaps every power-law evaluation happens at the
shifted point `z = gap + 0.1 ≥ 0.1`, so the whole integration window
`[z - epsilon, z + epsilon]` lies in the strictly positive reals (the
integrand's division `xmin / x` never sees `x = 0`), every per-candidate
density is strictly positive for `alpha > 1` and `xmin > 0`, and the
time-decay normalization denominator is strictly positive. -/
theorem C10_time_decay_safety {ts : List ℝ} {curr alpha xmin : ℝ}
    (hts : ∀ t ∈ ts, t ≤ curr) (ha : 1 < alpha) (hx : 0 < xmin) (hne : ts ≠ []) :
    (∀ t ∈ ts, ∀ x ∈ Set.Icc (((curr - t) + 1 / 10) - epsilon)
      (((curr - t) + 1 / 10) + epsilon), (0 : ℝ) < x) ∧
      (∀ q ∈ tdiff_probs ts curr alpha xmin, 0 < q) ∧
      0 < (tdiff_probs ts curr alpha xmin).sum := by
  refine ⟨?_, tdiff_probs_pos hts ha hx, tdiff_probs_sum_pos hts ha hx hne⟩
  intro t ht x hxm
  have h1 := hts t ht
  have h2 := hxm.1
  unfold epsilon at h2
  linarith

/-- Witness for C10 at a concrete candidate set. -/
theorem C10_time_decay_safety_witness :
    (∀ t ∈ [(0 : ℝ)], ∀ x ∈ Set.Icc (((0 - t) + 1 / 10) - epsilon)
      (((0 - t) + 1 / 10) + epsilon), (0 : ℝ) < x) ∧
      (∀ q ∈ tdiff_probs [0] 0 2 1, 0 < q) ∧
      0 < (tdiff_probs [0] 0 2 1).sum :=
  C10_time_decay_safety
    (by rintro t ht; simp only [List.mem_cons, List.not_mem_nil, or_false] at ht
        subst ht; norm_num)
    (by norm_num) (by norm_num) (by simp)

/-- C9: when all time gaps are equal (with a non-negative common gap, so the
constant per-candidate density is positive for `alpha > 1`, `xmin > 0`), the
normalized time-decay distribution is exactly the uniform distribution over
the candidates, and the normalization denominator is positive (no error). -/
theorem C9_equal_gaps_uniform {ts : List ℝ} {curr g alpha xmin : ℝ}
    (h : ∀ t ∈ ts, curr - t = g) (hg : 0 ≤ g) (ha : 1 < alpha) (hx : 0 < xmin)
    (hne : ts ≠ []) :
    norm_tstamp_prob_array ts curr alpha xmin =
      List.replicate ts.length ((ts.length : ℝ))⁻¹ ∧
      0 < (tdiff_probs ts curr alpha xmin).sum := by
  refine ⟨norm_tstamp_const h hg ha hx hne, ?_⟩
  refine tdiff_probs_sum_pos (fun t ht => ?_) ha hx hne
  have := h t ht
  linarith

/-- Witness for C9 at a concrete candidate set with two equal gaps. -/
theorem C9_equal_gaps_uniform_witness :
    norm_tstamp_prob_array [3, 3] 4 2 1 =
      List.replicate ([(3 : ℝ), 3].length) ((([(3 : ℝ), 3].length : ℕ) : ℝ))⁻¹ ∧
      0 < (tdiff_probs [3, 3] 4 2 1).sum :=
  C9_equal_gaps_uniform (g := 1)
    (by rintro t ht; simp only [List.mem_cons, List.not_mem_nil, or_false] at ht
        rcases ht with rfl | rfl <;> norm_num)
    (by norm_num) (by norm_num) (by norm_num) (by simp)

/-- C8: with `gamma = 1` the combined vector equals the audience-size
normalized distribution and does not depend on the timestamps; with
`gamma = 0` it equals the normalized time-decay distribution and does not
depend on the audience sizes.  The hypotheses keep every candidate set valid
(causally prior timestamps, positive audience totals, matching lengths), so
that the exact-arithmetic model agrees with the floating-point source. -/
theorem C8_gamma_boundary {ts ts2 fc fc2 : List ℝ} {curr curr2 alpha xmin : ℝ}
    (hlen : ts.length = fc.length) (hlen2 : ts2.length = fc.length)
    (hlenf : ts.length = fc2.length)
    (hfcsum : 0 < fc.sum) (hfc2sum : 0 < fc2.sum)
    (hts : ∀ t ∈ ts, t ≤ curr) (hts2 : ∀ t ∈ ts2, t ≤ curr2)
    (ha : 1 < alpha) (hx : 0 < xmin) :
    (indiv_probs ts fc curr 1 alpha xmin = fcount_probabilities fc ∧
      indiv_probs ts fc curr 1 alpha xmin = indiv_probs ts2 fc curr2 1 alpha xmin) ∧
    (indiv_probs ts fc curr 0 alpha xmin = norm_tstamp_prob_array ts curr alpha xmin ∧
      indiv_probs ts fc curr 0 alpha xmin = indiv_probs ts fc2 curr 0 alpha xmin) := by
  have key1 : ∀ (us : List ℝ) (c : ℝ), us.length = fc.length →
      indiv_probs us fc c 1 alpha xmin = fcount_probabilities fc := by
    intro us c h
    rw [indiv_probs]
    have hcollapse : (fun (a b : ℝ) => 1 * a + (1 - 1) * b) = fun (a : ℝ) (_ : ℝ) => a := by
      funext a b; ring
    rw [hcollapse]
    exact zipWith_proj_left _ _
      (by rw [fcount_probabilities_length, norm_tstamp_length, h])
  have key0 : ∀ (gs : List ℝ), ts.length = gs.length →
      indiv_probs ts gs curr 0 alpha xmin = norm_tstamp_prob_array ts curr alpha xmin := by
    intro gs h
    rw [indiv_probs]
    have hcollapse : (fun (a b : ℝ) => 0 * a + (1 - 0) * b) = fun (_ : ℝ) (b : ℝ) => b := by
      funext a b; ring
    rw [hcollapse]
    exact zipWith_proj_right _ _
      (by rw [fcount_probabilities_length, norm_tstamp_length, h])
  refine ⟨⟨key1 ts curr hlen, ?_⟩, ⟨key0 fc hlen, ?_⟩⟩
  · rw [key1 ts curr hlen, key1 ts2 curr2 hlen2]
  · rw [key0 fc hlen, key0 fc2 hlenf]

/-- Witness for C8 at concrete candidate sets differing in timestamps
(for the `gamma = 1` part) and in audience sizes (for the `gamma = 0` part). -/
theorem C8_gamma_boundary_witness :
    (indiv_probs [0, 1] [2, 6] 5 1 2 1 = fcount_probabilities [2, 6] ∧
      indiv_probs [0, 1] [2, 6] 5 1 2 1 = indiv_probs [0, 3] [2, 6] 9 1 2 1) ∧
    (indiv_probs [0, 1] [2, 6] 5 0 2 1 = norm_tstamp_prob_array [0, 1] 5 2 1 ∧
      indiv_probs [0, 1] [2, 6] 5 0 2 1 = indiv_probs [0, 1] [4, 4] 5 0 2 1) :=
  C8_gamma_boundary (by norm_num) (by norm_num) (by norm_num) (by norm_num) (by norm_num)
    (by rintro t ht; simp only [List.mem_cons, List.not_mem_nil, or_false] at ht
        rcases ht with rfl | rfl <;> norm_num)
    (by rintro t ht; simp only [List.mem_cons, List.not_mem_nil, or_false] at ht
        rcases ht with rfl | rfl <;> norm_num)
    (by norm_num) (by norm_num)

lemma norm_tstamp_pair_eq {t curr : ℝ} (h : 0 ≤ curr - t) :
    norm_tstamp_prob_array [t, t] curr 2 1 = [2⁻¹, 2⁻¹] := by
  have hconst := @norm_tstamp_const [t, t] curr (curr - t) 2 1
    (by rintro s hs; simp only [List.mem_cons, List.not_mem_nil, or_false] at hs
        rcases hs with rfl | rfl <;> ring) h (by norm_num) (by norm_num) (by simp)
  simpa using hconst

/-- C5 evaluation at the failing input (all audience sizes zero): the engine
computes an audience vector whose total is `0` — in the source this divides
by zero, propagating IEEE `nan` into the draw weights with no uniform
fallback anywhere; in this exact model the degenerate vector fails numpy's
sum-to-1 validation, so the draw is an error, not a uniform fallback draw. -/
theorem C5_zero_audience_no_fallback :
    (fcount_probabilities [0, 0]).sum = 0 ∧
      get_who_rtd_whom (U := ℕ) 0 [7, 8] [0, 0] [0, 0] 0 (1 / 2) 2 1 =
        Except.error "probabilities do not sum to 1" := by
  have hfc : fcount_probabilities [(0 : ℝ), 0] = [0, 0] := by
    simp [fcount_probabilities]
  have hnorm : norm_tstamp_prob_array [(0 : ℝ), 0] 0 2 1 = [2⁻¹, 2⁻¹] :=
    norm_tstamp_pair_eq (by norm_num)
  have hind : indiv_probs [(0 : ℝ), 0] [0, 0] 0 (1 / 2) 2 1 = [4⁻¹, 4⁻¹] := by
    rw [indiv_probs, hfc, hnorm]
    norm_num [List.zipWith]
  refine ⟨by rw [hfc]; norm_num, ?_⟩
  unfold get_who_rtd_whom
  rw [hind]
  unfold np_random_choice
  rw [if_neg (by norm_num), if_neg (not_not_intro (by norm_num [List.forall_mem_cons])),
    if_pos (by
      rw [List.sum_cons, List.sum_cons, List.sum_nil,
        show ((4 : ℝ)⁻¹ + (4⁻¹ + 0)) - 1 = -(1 / 2) by norm_num, abs_neg,
        abs_of_nonneg (by norm_num : (0 : ℝ) ≤ 1 / 2)]
      norm_num [np_atol])]

/-- C6 counterexample: with the invalid mixing weight `gamma = 2` (outside
`[0,1]`) the engine does not reject the configuration: it computes the
mixture with the invalid `gamma` verbatim and the draw succeeds. -/
theorem C6_invalid_gamma_not_rejected :
    ¬ ((0 : ℝ) ≤ 2 ∧ (2 : ℝ) ≤ 1) ∧
      get_who_rtd_whom (U := ℕ) 0 [7, 8] [0, 0] [1, 1] 0 2 2 1 = Except.ok 7 := by
  refine ⟨by norm_num, ?_⟩
  have hfc : fcount_probabilities [(1 : ℝ), 1] = [2⁻¹, 2⁻¹] := by
    norm_num [fcount_probabilities]
  have hnorm : norm_tstamp_prob_array [(0 : ℝ), 0] 0 2 1 = [2⁻¹, 2⁻¹] :=
    norm_tstamp_pair_eq (by norm_num)
  have hind : indiv_probs [(0 : ℝ), 0] [1, 1] 0 2 2 1 = [2⁻¹, 2⁻¹] := by
    rw [indiv_probs, hfc, hnorm]
    norm_num [List.zipWith]
  have hres := @get_who_rtd_whom_eval ℕ _ _ [7, 8] [0, 0] [1, 1] 0 2 2 1 0
    (by rw [hind]; norm_num)
    (by rw [hind]; norm_num [List.forall_mem_cons])
    (by rw [hind]; norm_num [np_atol])
  simpa using hres

/-- C6 (amended): the core performs no configuration validation at all —
`gamma`, `alpha` and `xmin` are used verbatim (never clamped or rejected);
the only rejection point in a run is numpy's validation of the final weight
vector, and whenever that vector passes those checks the draw proceeds, even
for invalid configurations. -/
theorem C6_no_validation {users : List U} {ts fc : List ℝ}
    {curr gamma alpha xmin : ℝ} (pick : ℕ)
    (hlen : (indiv_probs ts fc curr gamma alpha xmin).length = users.length)
    (hnn : ∀ q ∈ indiv_probs ts fc curr gamma alpha xmin, 0 ≤ q)
    (hsum : |(indiv_probs ts fc curr gamma alpha xmin).sum - 1| ≤ np_atol) :
    get_who_rtd_whom pick users ts fc curr gamma alpha xmin =
      Except.ok (users.getD pick default) :=
  get_who_rtd_whom_eval pick hlen hnn hsum

/-- Witness for C6 at the invalid configuration `gamma = 3`. -/
theorem C6_no_validation_witness :
    get_who_rtd_whom (U := ℕ) 1 [7, 8] [0, 0] [1, 1] 0 3 2 1 = Except.ok 8 := by
  have hfc : fcount_probabilities [(1 : ℝ), 1] = [2⁻¹, 2⁻¹] := by
    norm_num [fcount_probabilities]
  have hnorm : norm_tstamp_prob_array [(0 : ℝ), 0] 0 2 1 = [2⁻¹, 2⁻¹] :=
    norm_tstamp_pair_eq (by norm_num)
  have hind : indiv_probs [(0 : ℝ), 0] [1, 1] 0 3 2 1 = [2⁻¹, 2⁻¹] := by
    rw [indiv_probs, hfc, hnorm]
    norm_num [List.zipWith]
  have hres := @C6_no_validation ℕ _ _ [7, 8] [0, 0] [1, 1] 0 3 2 1 1
    (by rw [hind]; norm_num)
    (by rw [hind]; norm_num [List.forall_mem_cons])
    (by rw [hind]; norm_num [np_atol])
  simpa using hres

lemma cfd_not_integrable_near_zero :
    ¬ IntervalIntegrable (fun x => closed_form_density x 2 (1 / 20000)) volume
      ((1 / 20000 : ℝ) - epsilon) ((1 / 20000 : ℝ) + epsilon) := by
  intro h
  have heps : epsilon = (1 / 10000 : ℝ) := rfl
  have hab : ((1 / 20000 : ℝ) - epsilon) ≤ ((1 / 20000 : ℝ) + epsilon) := by
    rw [heps]; norm_num
  rw [intervalIntegrable_iff_integrableOn_Ioc_of_le hab] at h
  have hsub : Set.Ioo (0 : ℝ) ((1 / 20000 : ℝ) + epsilon) ⊆
      Set.Ioc ((1 / 20000 : ℝ) - epsilon) ((1 / 20000 : ℝ) + epsilon) := by
    intro x hx
    refine ⟨?_, le_of_lt hx.2⟩
    have h1 := hx.1
    rw [heps]
    linarith
  have h2 := h.mono_set hsub
  set C : ℝ := ((2 - 1) / (1 / 20000)) * ((1 / 20000 : ℝ) ^ (2 : ℝ)) with hC
  have hCpos : 0 < C := by
    rw [hC]
    have : (0 : ℝ) < (1 / 20000 : ℝ) ^ (2 : ℝ) := Real.rpow_pos_of_pos (by norm_num) _
    nlinarith
  have heq : Set.EqOn (fun x => closed_form_density x 2 (1 / 20000))
      (fun x => C * x ^ (-2 : ℝ)) (Set.Ioo (0 : ℝ) ((1 / 20000 : ℝ) + epsilon)) := by
    intro x hx
    simp only [closed_form_density, hC]
    rw [Real.div_rpow (by norm_num) hx.1.le, Real.rpow_neg hx.1.le]
    ring
  have h3 := h2.congr_fun heq measurableSet_Ioo
  have h4 : IntegrableOn (fun x => x ^ (-2 : ℝ))
      (Set.Ioo (0 : ℝ) ((1 / 20000 : ℝ) + epsilon)) volume := by
    have h5 := h3.const_mul C⁻¹
    have hfun : (fun x : ℝ => C⁻¹ * (C * x ^ (-2 : ℝ))) = fun x : ℝ => x ^ (-2 : ℝ) := by
      funext x
      field_simp
    rwa [hfun] at h5
  rw [intervalIntegral.integrableOn_Ioo_rpow_iff (by rw [heps]; norm_num)] at h4
  norm_num at h4

lemma power_law_at_singularity : power_law (1 / 20000) 2 (1 / 20000) = 0 := by
  rw [power_law_eq_integral]
  exact intervalIntegral.integral_undef cfd_not_integrable_near_zero

/-- C7 counterexample: at `t = xmin = 1/20000` (which satisfies the claim's
hypotheses `t ≥ xmin > 0`, `alpha = 2 > 1`) the integration window
`t ± epsilon` crosses the integrand's singularity at 0: the integrand is not
integrable there (the idealized integral degenerates to 0) and the evaluation
is NOT within the proportional window-width error of the strictly positive
closed-form density. -/
theorem C7_singular_window_counterexample :
    ((1 / 20000 : ℝ) ≥ 1 / 20000 ∧ (0 : ℝ) < 1 / 20000 ∧ (1 : ℝ) < 2) ∧
      power_law (1 / 20000) 2 (1 / 20000) = 0 ∧
      ¬ (2 * epsilon * closed_form_density ((1 / 20000 : ℝ) + epsilon) 2 (1 / 20000) ≤
            power_law (1 / 20000) 2 (1 / 20000) ∧
          power_law (1 / 20000) 2 (1 / 20000) ≤
            2 * epsilon * closed_form_density ((1 / 20000 : ℝ) - epsilon) 2 (1 / 20000)) := by
  have h0 := power_law_at_singularity
  refine ⟨⟨le_refl _, by norm_num, by norm_num⟩, h0, ?_⟩
  rintro ⟨hlow, -⟩
  rw [h0] at hlow
  have hcfd : 0 < closed_form_density ((1 / 20000 : ℝ) + epsilon) 2 (1 / 20000) :=
    closed_form_density_pos (by have := epsilon_pos; linarith) (by norm_num) (by norm_num)
  have heps := epsilon_pos
  nlinarith

/-- C7 (amended): for `t ≥ xmin > 0` and `alpha > 1`, provided additionally
`t > epsilon` so the integration window stays inside the power law's domain
(automatic in the reference configuration `xmin = 1`), the numerical
integration `power_law t alpha xmin` agrees with the closed-form density up
to the integration error over the window of constant width `2 * epsilon`:
it is squeezed between `2 * epsilon` times the density at the two window
ends, which pins the normalized discrete distribution to the closed-form one
up to that same proportional error. -/
theorem C7_integration_closed_form {t alpha xmin : ℝ} (ht : xmin ≤ t) (hx : 0 < xmin)
    (ha : 1 < alpha) (hte : epsilon < t) :
    2 * epsilon * closed_form_density (t + epsilon) alpha xmin ≤ power_law t alpha xmin ∧
      power_law t alpha xmin ≤ 2 * epsilon * closed_form_density (t - epsilon) alpha xmin :=
  ⟨power_law_lower hte ha.le hx, power_law_upper hte ha.le hx⟩

/-- Witness for C7 (amended) at `t = xmin = 1`, `alpha = 2`. -/
theorem C7_integration_closed_form_witness :
    2 * epsilon * closed_form_density (1 + epsilon) 2 1 ≤ power_law 1 2 1 ∧
      power_law 1 2 1 ≤ 2 * epsilon * closed_form_density (1 - epsilon) 2 1 :=
  C7_integration_closed_form (le_refl 1) (by norm_num) (by norm_num)
    (by unfold epsilon; norm_num)

lemma sum_take_mono {l : List ℝ} (h : ∀ x ∈ l, 0 ≤ x) {m n : ℕ} (hmn : m ≤ n) :
    (l.take m).sum ≤ (l.take n).sum := by
  have h1 : l.take m = (l.take n).take m := by
    rw [List.take_take, min_eq_left hmn]
  rw [h1]
  have h2 : 0 ≤ ((l.take n).drop m).sum :=
    List.sum_nonneg fun x hx =>
      h x (List.take_subset n l (List.drop_subset m (l.take n) hx))
  calc ((l.take n).take m).sum
      ≤ ((l.take n).take m).sum + ((l.take n).drop m).sum := by linarith
    _ = (l.take n).sum := by rw [← List.sum_append, List.take_append_drop]

lemma sorted_take_le {ts : List ℝ} (hs : List.Sorted (· ≤ ·) ts) {i : ℕ}
    (hi : i < ts.length) : ∀ t ∈ ts.take i, t ≤ ts.getD i 0 := by
  intro t ht
  rw [List.mem_iff_getElem] at ht
  obtain ⟨j, hj, rfl⟩ := ht
  have hj2 : j < i := by
    have hb := hj
    rw [List.length_take] at hb
    omega
  have hjl : j < ts.length := by omega
  rw [List.getElem_take, List.getD_eq_getElem ts 0 hi]
  exact List.pairwise_iff_getElem.mp hs j i hjl hi hj2

lemma getD_take_eq {α : Type} {l : List α} (d : α) {i k : ℕ} (hk : k < i)
    (hi : i ≤ l.length) : (l.take i).getD k d = l.getD k d := by
  have hk2 : k < (l.take i).length := by
    rw [List.length_take]; omega
  have hkl : k < l.length := by omega
  rw [List.getD_eq_getElem _ _ hk2, List.getD_eq_getElem _ _ hkl, List.getElem_take]

lemma map_getD_range'_eq_drop {α : Type} (d : α) :
    ∀ (n j : ℕ) (l : List α), j + n = l.length →
      (List.range' j n).map (fun i => l.getD i d) = l.drop j := by
  intro n
  induction n with
  | zero =>
    intro j l h
    have hj : j = l.length := by omega
    subst hj
    simp [List.drop_length]
  | succ n ih =>
    intro j l h
    rw [List.range'_succ j n 1, List.map_cons, ih (j + 1) l (by omega)]
    have hj : j < l.length := by omega
    rw [List.drop_eq_getElem_cons hj, List.getD_eq_getElem l d hj]

lemma engine_ok_at_index {users : List U} {ts fc : List ℝ} {gamma alpha xmin : ℝ}
    (pick : ℕ → ℕ)
    (hlt : ts.length = users.length) (hlf : fc.length = users.length)
    (hfc : ∀ x ∈ fc, 0 ≤ x) (hsum2 : 0 < (fc.take 2).sum)
    (hs : List.Sorted (· ≤ ·) ts)
    (hg0 : 0 ≤ gamma) (hg1 : gamma ≤ 1) (ha : 1 < alpha) (hx : 0 < xmin)
    {i : ℕ} (h2 : 2 ≤ i) (hiu : i < users.length) :
    get_who_rtd_whom (pick i) (users.take i) (ts.take i) (fc.take i)
        (ts.getD i 0) gamma alpha xmin =
      Except.ok ((users.take i).getD (pick i) default) := by
  refine get_who_rtd_whom_ok (pick i) ?_ ?_ ?_ ?_ ?_ hg0 hg1 ha hx
  · rw [List.length_take, List.length_take, hlt, hlf]
  · rw [List.length_take, List.length_take, hlf]
  · intro x hx'
    exact hfc x (List.take_subset i fc hx')
  · exact lt_of_lt_of_le hsum2 (sum_take_mono hfc h2)
  · exact sorted_take_le hs (by omega)

lemma infer_edges_ok {users : List U} {ts fc : List ℝ} {gamma alpha xmin : ℝ}
    (pick : ℕ → ℕ)
    (hlt : ts.length = users.length) (hlf : fc.length = users.length)
    (hfc : ∀ x ∈ fc, 0 ≤ x) (hsum2 : 0 < (fc.take 2).sum)
    (hs : List.Sorted (· ≤ ·) ts)
    (hg0 : 0 ≤ gamma) (hg1 : gamma ≤ 1) (ha : 1 < alpha) (hx : 0 < xmin) :
    ∀ idxs : List ℕ, (∀ i ∈ idxs, 2 ≤ i ∧ i < users.length) →
      infer_edges pick users ts fc gamma alpha xmin idxs =
        Except.ok (idxs.map
          (fun i => ((users.take i).getD (pick i) default, users.getD i default))) := by
  intro idxs
  induction idxs with
  | nil => intro _; rfl
  | cons i rest ih =>
    intro hall
    obtain ⟨h2, hiu⟩ := hall i (List.mem_cons_self _ _)
    simp only [infer_edges]
    rw [engine_ok_at_index pick hlt hlf hfc hsum2 hs hg0 hg1 ha hx h2 hiu]
    rw [ih (fun j hj => hall j (List.mem_cons_of_mem _ hj))]
    rfl

lemma entire_cascade_reconstruction_ok {users : List U} {ts fc : List ℝ}
    {gamma alpha xmin : ℝ} (pick : ℕ → ℕ)
    (hlt : ts.length = users.length) (hlf : fc.length = users.length)
    (hL : 2 ≤ users.length)
    (hfc : ∀ x ∈ fc, 0 ≤ x) (hsum2 : 0 < (fc.take 2).sum)
    (hs : List.Sorted (· ≤ ·) ts)
    (hg0 : 0 ≤ gamma) (hg1 : gamma ≤ 1) (ha : 1 < alpha) (hx : 0 < xmin) :
    entire_cascade_reconstruction pick users ts fc gamma alpha xmin =
      Except.ok (pdi_edge_list pick users) := by
  have hrange : ∀ i ∈ List.range' 2 (ts.length - 2), 2 ≤ i ∧ i < users.length := by
    intro i hi
    rw [List.mem_range'_1] at hi
    refine ⟨hi.1, ?_⟩
    have hb := hi.2
    omega
  simp only [entire_cascade_reconstruction]
  rw [infer_edges_ok pick hlt hlf hfc hsum2 hs hg0 hg1 ha hx _ hrange]
  rw [pdi_edge_list, hlt]

lemma pdi_edge_list_length (pick : ℕ → ℕ) (users : List U) (hL : 2 ≤ users.length) :
    (pdi_edge_list pick users).length = users.length - 1 := by
  rw [pdi_edge_list]
  simp only [List.length_cons, List.length_map, List.length_range']
  omega

lemma pdi_edge_list_children (pick : ℕ → ℕ) (users : List U) (hL : 2 ≤ users.length) :
    (pdi_edge_list pick users).map Prod.snd = users.drop 1 := by
  rw [pdi_edge_list, List.map_cons, List.map_map]
  have h1 : (Prod.snd ∘ fun i => ((users.take i).getD (pick i) default, users.getD i default))
      = fun i => users.getD i default := rfl
  rw [h1, map_getD_range'_eq_drop (default : U) (users.length - 2) 2 users (by omega)]
  have h3 : (1 : ℕ) < users.length := by omega
  rw [List.drop_eq_getElem_cons h3, List.getD_eq_getElem users default h3]

lemma pdi_edge_list_mem (pick : ℕ → ℕ) (users : List U) (hL : 2 ≤ users.length)
    (hpick : ∀ i, 2 ≤ i → i < users.length → pick i < i) :
    ∀ e ∈ pdi_edge_list pick users, ∃ j i, j < i ∧ i < users.length ∧
      e = (users.getD j default, users.getD i default) := by
  intro e he
  rw [pdi_edge_list, List.mem_cons] at he
  rcases he with rfl | he
  · exact ⟨0, 1, by omega, by omega, rfl⟩
  · rw [List.mem_map] at he
    obtain ⟨i, hi, rfl⟩ := he
    rw [List.mem_range'_1] at hi
    have h2 : 2 ≤ i := hi.1
    have hiu : i < users.length := by
      have hb := hi.2
      omega
    have hp := hpick i h2 hiu
    refine ⟨pick i, i, hp, hiu, ?_⟩
    rw [getD_take_eq default hp (le_of_lt hiu)]

lemma indexOf_getD_eq {l : List U} (hnd : l.Nodup) {j : ℕ} (hj : j < l.length) :
    l.indexOf (l.getD j default) = j := by
  rw [List.getD_eq_getElem l default hj]
  have hmem : l[j] ∈ l := List.getElem_mem hj
  have hidx : l.indexOf l[j] < l.length := List.indexOf_lt_length.mpr hmem
  have hget : l.get ⟨l.indexOf l[j], hidx⟩ = l[j] := List.indexOf_get hidx
  have hinj := List.nodup_iff_injective_get.mp hnd
  have hfin : (⟨l.indexOf l[j], hidx⟩ : Fin l.length) = ⟨j, hj⟩ := by
    apply hinj
    rw [hget]
    simp [List.get_eq_getElem]
  simpa using congrArg Fin.val hfin

lemma getD_ne_of_index_lt {l : List U} (hnd : l.Nodup) {j i : ℕ} (hji : j < i)
    (hi : i < l.length) : l.getD j default ≠ l.getD i default := by
  intro hEq
  have h1 := indexOf_getD_eq hnd (lt_trans hji hi)
  have h2 := indexOf_getD_eq hnd hi
  rw [hEq] at h1
  omega

lemma pdi_edge_list_no_cycle (pick : ℕ → ℕ) (users : List U) (hL : 2 ≤ users.length)
    (hnd : users.Nodup) (hpick : ∀ i, 2 ≤ i → i < users.length → pick i < i) :
    ∀ u : U, ¬ Relation.TransGen (fun a b => (a, b) ∈ pdi_edge_list pick users) u u := by
  have hstep : ∀ a b : U, (a, b) ∈ pdi_edge_list pick users →
      users.indexOf a < users.indexOf b := by
    intro a b hab
    obtain ⟨j, i, hji, hiu, hEq⟩ := pdi_edge_list_mem pick users hL hpick _ hab
    injection hEq with hEq1 hEq2
    subst hEq1
    subst hEq2
    rw [indexOf_getD_eq hnd (lt_trans hji hiu), indexOf_getD_eq hnd hiu]
    exact hji
  have hmono : ∀ a b : U,
      Relation.TransGen (fun a b => (a, b) ∈ pdi_edge_list pick users) a b →
        users.indexOf a < users.indexOf b := by
    intro a b h
    induction h with
    | single h1 => exact hstep _ _ h1
    | tail h1 h2 ih => exact lt_trans ih (hstep _ _ h2)
  intro u hcyc
  exact absurd (hmono u u hcyc) (lt_irrefl _)

lemma pdi_edge_list_reaches_root (pick : ℕ → ℕ) (users : List U) (hL : 2 ≤ users.length)
    (hpick : ∀ i, 2 ≤ i → i < users.length → pick i < i) :
    ∀ i, i < users.length →
      Relation.ReflTransGen (fun a b => (b, a) ∈ pdi_edge_list pick users)
        (users.getD i default) (users.getD 0 default) := by
  intro i
  induction i using Nat.strong_induction_on with
  | _ i ih =>
    intro hi
    rcases Nat.lt_or_ge i 2 with hlt | hge
    · interval_cases i
      · exact Relation.ReflTransGen.refl
      · refine Relation.ReflTransGen.head ?_ Relation.ReflTransGen.refl
        exact List.mem_cons_self _ _
    · have hmem : i ∈ List.range' 2 (users.length - 2) := by
        rw [List.mem_range'_1]
        omega
      have hedge : ((users.take i).getD (pick i) default, users.getD i default) ∈
          pdi_edge_list pick users :=
        List.mem_cons_of_mem _ (List.mem_map.mpr ⟨i, hmem, rfl⟩)
      have hp := hpick i hge hi
      rw [getD_take_eq default hp (le_of_lt hi)] at hedge
      exact Relation.ReflTransGen.head hedge (ih (pick i) hp (lt_trans hp hi))

/-- C1: for every temporally sorted cascade event list of length `L ≥ 2`
(with matching timestamp/audience lists, a valid configuration, and a
non-degenerate audience total over the first two events so every engine
invocation is well defined), one driver run returns an edge list of exactly
`L - 1` edges whose first edge is verbatim `(users[0], users[1])` with no
inference, and whose edge at position `i - 1`, for each `i ≥ 2`, is
`(p, users[i])` where `p` is exactly what the inference engine returns when
invoked with candidates `users[0:i]`, `tstamps[0:i]`, `fcounts[0:i]` and
current timestamp `tstamps[i]`. -/
theorem C1_driver_structure {users : List U} {ts fc : List ℝ} {gamma alpha xmin : ℝ}
    (pick : ℕ → ℕ)
    (hlt : ts.length = users.length) (hlf : fc.length = users.length)
    (hL : 2 ≤ users.length)
    (hfc : ∀ x ∈ fc, 0 ≤ x) (hsum2 : 0 < (fc.take 2).sum)
    (hs : List.Sorted (· ≤ ·) ts)
    (hg0 : 0 ≤ gamma) (hg1 : gamma ≤ 1) (ha : 1 < alpha) (hx : 0 < xmin) :
    ∃ edges, entire_cascade_reconstruction pick users ts fc gamma alpha xmin =
        Except.ok edges ∧
      edges.length = users.length - 1 ∧
      edges.head? = some (users.getD 0 default, users.getD 1 default) ∧
      ∀ i, 2 ≤ i → i < users.length →
        get_who_rtd_whom (pick i) (users.take i) (ts.take i) (fc.take i)
            (ts.getD i 0) gamma alpha xmin =
          Except.ok ((users.take i).getD (pick i) default) ∧
        edges[i - 1]? =
          some ((users.take i).getD (pick i) default, users.getD i default) := by
  refine ⟨pdi_edge_list pick users,
    entire_cascade_reconstruction_ok pick hlt hlf hL hfc hsum2 hs hg0 hg1 ha hx,
    pdi_edge_list_length pick users hL, rfl, ?_⟩
  intro i h2 hiu
  refine ⟨engine_ok_at_index pick hlt hlf hfc hsum2 hs hg0 hg1 ha hx h2 hiu, ?_⟩
  rw [pdi_edge_list]
  have hsplit : i - 1 = (i - 2) + 1 := by omega
  rw [hsplit, List.getElem?_cons_succ, List.getElem?_map,
    List.getElem?_eq_getElem (by rw [List.length_range']; omega), List.getElem_range']
  rw [show 2 + 1 * (i - 2) = i by omega]
  rfl

/-- Witness for C1: a concrete sorted three-event cascade with the oracle
always sampling the root. -/
theorem C1_driver_structure_witness :
    ∃ edges, entire_cascade_reconstruction (U := ℕ) (fun _ => 0) [5, 6, 7] [0, 1, 2]
        [1, 1, 1] (1 / 2) 2 1 = Except.ok edges ∧
      edges.length = [5, 6, 7].length - 1 ∧
      edges.head? = some (([5, 6, 7].getD 0 default : ℕ), [5, 6, 7].getD 1 default) ∧
      ∀ i, 2 ≤ i → i < [5, 6, 7].length →
        get_who_rtd_whom ((fun _ => 0) i) ([5, 6, 7].take i) (([0, 1, 2] : List ℝ).take i)
            (([1, 1, 1] : List ℝ).take i) (([0, 1, 2] : List ℝ).getD i 0) (1 / 2) 2 1 =
          Except.ok ((([5, 6, 7] : List ℕ).take i).getD ((fun _ => 0) i) default) ∧
        edges[i - 1]? =
          some ((([5, 6, 7].take i).getD ((fun _ => 0) i) default : ℕ),
            [5, 6, 7].getD i default) :=
  C1_driver_structure (fun _ => 0) (by norm_num) (by norm_num) (by norm_num)
    (by rintro x hx
        simp only [List.mem_cons, List.not_mem_nil, or_false] at hx
        rcases hx with rfl | rfl | rfl <;> norm_num)
    (by rw [show (([(1 : ℝ), 1, 1]).take 2) = [1, 1] from rfl]; norm_num)
    (by simp only [List.sorted_cons, List.mem_cons, List.not_mem_nil, or_false,
          List.sorted_nil, and_true]
        norm_num)
    (by norm_num) (by norm_num) (by norm_num) (by norm_num)

/-- C2: for every sorted cascade event list of length `L ≥ 2` with distinct
actors (matching lists, valid configuration, non-degenerate audience total
over the first two events, and the sampled index always among the causally
prior candidates, as `np.random.choice` guarantees), every edge list a driver
run produces has exactly `L - 1` edges, its children are exactly the non-root
actors in temporal order (so every non-root actor is the child of exactly one
edge), every edge's parent is an actor strictly earlier in the event order
than its child (in particular no actor is its own parent), every actor
reaches the root by following edges backwards (connectedness), and the edge
relation admits no cycle. -/
theorem C2_tree_validity {users : List U} {ts fc : List ℝ} {gamma alpha xmin : ℝ}
    (pick : ℕ → ℕ)
    (hlt : ts.length = users.length) (hlf : fc.length = users.length)
    (hL : 2 ≤ users.length) (hnd : users.Nodup)
    (hfc : ∀ x ∈ fc, 0 ≤ x) (hsum2 : 0 < (fc.take 2).sum)
    (hs : List.Sorted (· ≤ ·) ts)
    (hg0 : 0 ≤ gamma) (hg1 : gamma ≤ 1) (ha : 1 < alpha) (hx : 0 < xmin)
    (hpick : ∀ i, 2 ≤ i → i < users.length → pick i < i) :
    ∃ edges, entire_cascade_reconstruction pick users ts fc gamma alpha xmin =
        Except.ok edges ∧
      edges.length = users.length - 1 ∧
      edges.map Prod.snd = users.drop 1 ∧
      (∀ e ∈ edges, ∃ j i, j < i ∧ i < users.length ∧
        e = (users.getD j default, users.getD i default)) ∧
      (∀ e ∈ edges, e.1 ≠ e.2) ∧
      (∀ u ∈ users, Relation.ReflTransGen (fun a b => (b, a) ∈ edges) u
        (users.getD 0 default)) ∧
      (∀ u : U, ¬ Relation.TransGen (fun a b => (a, b) ∈ edges) u u) := by
  refine ⟨pdi_edge_list pick users,
    entire_cascade_reconstruction_ok pick hlt hlf hL hfc hsum2 hs hg0 hg1 ha hx,
    pdi_edge_list_length pick users hL,
    pdi_edge_list_children pick users hL,
    pdi_edge_list_mem pick users hL hpick, ?_, ?_,
    pdi_edge_list_no_cycle pick users hL hnd hpick⟩
  · intro e he
    obtain ⟨j, i, hji, hiu, rfl⟩ := pdi_edge_list_mem pick users hL hpick e he
    exact getD_ne_of_index_lt hnd hji hiu
  · intro u hu
    rw [List.mem_iff_getElem] at hu
    obtain ⟨i, hi, rfl⟩ := hu
    have hr := pdi_edge_list_reaches_root pick users hL hpick i hi
    rwa [List.getD_eq_getElem users default hi] at hr

/-- Witness for C2: the concrete sorted three-event cascade with distinct
actors and the oracle always sampling the root. -/
theorem C2_tree_validity_witness :
    ∃ edges, entire_cascade_reconstruction (U := ℕ) (fun _ => 0) [5, 6, 7] [0, 1, 2]
        [1, 1, 1] (1 / 2) 2 1 = Except.ok edges ∧
      edges.length = [5, 6, 7].length - 1 ∧
      edges.map Prod.snd = [5, 6, 7].drop 1 ∧
      (∀ e ∈ edges, ∃ j i, j < i ∧ i < [5, 6, 7].length ∧
        e = (([5, 6, 7].getD j default : ℕ), [5, 6, 7].getD i default)) ∧
      (∀ e ∈ edges, e.1 ≠ e.2) ∧
      (∀ u ∈ [5, 6, 7], Relation.ReflTransGen (fun a b => (b, a) ∈ edges) u
        (([5, 6, 7].getD 0 default : ℕ))) ∧
      (∀ u : ℕ, ¬ Relation.TransGen (fun a b => (a, b) ∈ edges) u u) :=
  C2_tree_validity (fun _ => 0) (by norm_num) (by norm_num) (by norm_num) (by decide)
    (by rintro x hx
        simp only [List.mem_cons, List.not_mem_nil, or_false] at hx
        rcases hx with rfl | rfl | rfl <;> norm_num)
    (by rw [show (([(1 : ℝ), 1, 1]).take 2) = [1, 1] from rfl]; norm_num)
    (by simp only [List.sorted_cons, List.mem_cons, List.not_mem_nil, or_false,
          List.sorted_nil, and_true]
        norm_num)
    (by norm_num) (by norm_num) (by norm_num) (by norm_num)
    (fun i h2 _ => lt_of_lt_of_le (by norm_num) h2)
